import Mathlib

/-!
Verification of the grab download engine (github.com/sebrandon1/grab).

The development shallowly embeds the repository's transfer loop
(`transfer.copy`, `transfer.N`, `transfer.BPS` in lib), the two CLI
download commands (cmd/download.go and cmd/grab/cmd/download.go), and —
for library functions whose implementation is exercised only through the
repository's tests — models built from the specification
(`guessFilename`, the Content-Range validation of `Client.getRequest`,
`GetBatch`/`DownloadBatch`).

Go machine integers hold byte counts that are always non-negative and far
from overflow in every claim considered here, so counts are embedded as
`Nat`; Go `error` values are embedded as `Option GoErr`; readers are
embedded as the finite list of results their successive `Read` calls
return, with every later call returning `(0, io.EOF)`.
-/

namespace Grab

/-- Embedded Go `error` values, distinguishing the sentinel errors the
code compares against (`io.EOF`, `context.Canceled`, `io.ErrShortWrite`,
`ErrNoFilename`) from other read/write/limiter failures, which are
tagged with a numeric code so that distinct failures stay distinct. -/
inductive GoErr where
  | eof
  | canceled
  | shortWrite
  | noFilename
  | resumeMismatch
  | badDest
  | badURL
  | readErr (code : Nat)
  | writeErr (code : Nat)
  | limErr (code : Nat)
deriving DecidableEq, Repr

/-- One result of a `Read` call on the source reader: the bytes produced
(`data`, possibly fewer than one buffer's worth — a short read) and the
error returned alongside them (`none` for a clean read). Reading past
the end of the event list yields `(0, io.EOF)`. -/
structure ReadEv where
  data : List Nat
  er : Option GoErr
deriving DecidableEq, Repr

/-- The environment of one `transfer.copy` run: the context (`cancelAt k`
means the context's Done channel is closed from iteration `k` onwards, and
`ctx.Err()` returns `context.Canceled`), the destination writer (given
the iteration index and the bytes offered, it returns how many bytes it
accepted and an error), and the optional rate limiter (given the
iteration index and the byte count just written, `WaitN` returns its
error). Indexing the writer and limiter by the iteration lets them be
arbitrary deterministic stateful collaborators. -/
structure CopyEnv where
  cancelAt : Option Nat
  write : Nat → List Nat → Nat × Option GoErr
  lim : Option (Nat → Nat → Option GoErr)

/-- Whether the context has been canceled at the start of iteration `i`
(the non-blocking `select` on `ctx.Done()` at the top of the loop). -/
def ctxDone (c : Option Nat) (i : Nat) : Bool :=
  match c with
  | none => false
  | some k => decide (k ≤ i)

/-- Result of a `transfer.copy` run: the returned byte count and error,
together with instrumentation used to state the claims — the number of
`Read` calls performed, the successive values stored to the atomic
counter `transfer.n`, and the bytes durably accepted by the writer. -/
structure CopyResult where
  written : Nat
  err : Option GoErr
  reads : Nat
  trace : List Nat
  out : List Nat
deriving DecidableEq, Repr

/-- Outcome of processing one read result inside the loop body: bytes
accepted by the writer (`dw`), bytes durably written (`dout`), and
whether the loop terminates now (`stop = some e` ends the loop returning
error `e`; `stop = none` continues with the next iteration). -/
structure StepRes where
  dw : Nat
  dout : List Nat
  stop : Option (Option GoErr)
deriving DecidableEq, Repr

/-- One iteration body of `transfer.copy` after the cancellation check:
read result `ev` is in hand. If bytes were read they are offered to the
writer in full; a write error ends the loop, a write accepting fewer
bytes than offered ends it with `io.ErrShortWrite`, then the rate
limiter (when configured) is awaited and its error ends the loop.
Finally the read's own error is examined: `io.EOF` ends the loop
cleanly, any other read error ends it with that error, and no error
continues the loop. -/
def step (env : CopyEnv) (i : Nat) (ev : ReadEv) : StepRes :=
  if 0 < ev.data.length then
    let nw := (env.write i ev.data).1
    let ew := (env.write i ev.data).2
    let dout := ev.data.take nw
    match ew with
    | some e => ⟨nw, dout, some (some e)⟩
    | none =>
      if ev.data.length ≠ nw then ⟨nw, dout, some (some .shortWrite)⟩
      else
        match (match env.lim with | some f => f i ev.data.length | none => none) with
        | some e => ⟨nw, dout, some (some e)⟩
        | none =>
          match ev.er with
          | some e => ⟨nw, dout, some (if e = .eof then none else some e)⟩
          | none => ⟨nw, dout, none⟩
  else
    match ev.er with
    | some e => ⟨0, [], some (if e = .eof then none else some e)⟩
    | none => ⟨0, [], none⟩

/-- Account for one more `Read` call in a loop result. -/
def bumpReads (r : CopyResult) : CopyResult :=
  ⟨r.written, r.err, r.reads + 1, r.trace, r.out⟩

/-- The loop of `transfer.copy`, from iteration `i` with `w` bytes
already written, `tr` the values stored to the counter so far, and `out`
the bytes durably written so far. Before every read the context is
checked; if it is already canceled the loop returns the cancellation
error with the current byte count and performs no further read. An
exhausted event list is a reader that returns `(0, io.EOF)`: the loop
ends cleanly. The counter store `atomic.StoreInt64(&c.n, written)`
happens exactly when the write accepted a positive number of bytes. -/
def copyLoop (env : CopyEnv) : List ReadEv → Nat → Nat → List Nat → List Nat → CopyResult
  | [], i, w, tr, out =>
    if ctxDone env.cancelAt i then ⟨w, some .canceled, 0, tr, out⟩
    else ⟨w, none, 1, tr, out⟩
  | ev :: rest, i, w, tr, out =>
    if ctxDone env.cancelAt i then ⟨w, some .canceled, 0, tr, out⟩
    else
      let s := step env i ev
      let w' := w + s.dw
      let tr' := if 0 < s.dw then tr ++ [w'] else tr
      let out' := out ++ s.dout
      match s.stop with
      | some e => ⟨w', e, 1, tr', out'⟩
      | none => bumpReads (copyLoop env rest (i + 1) w' tr' out')

/-- `transfer.copy`: run the loop from a fresh transfer (zero bytes
written, counter at zero). -/
def copy (env : CopyEnv) (evs : List ReadEv) : CopyResult :=
  copyLoop env evs 0 0 [] []

/-- The progress gauge interface consulted by `transfer.BPS`. -/
structure Gauge where
  bps : Float

/-- The fields of the `transfer` struct read by its progress accessors:
the atomic counter `n` and the optional gauge. A nil `*transfer`
receiver is embedded as `none` at the accessors' call sites. -/
structure Transfer where
  n : Int
  gauge : Option Gauge

/-- `newTransfer`: the constructor sets the counter to zero and installs
no gauge (`gauge: nil, // no-op gauge for now`). -/
def newTransfer : Transfer :=
  ⟨0, none⟩

/-- `transfer.N`: returns 0 on a nil receiver, otherwise the atomic load
of the counter. -/
def N : Option Transfer → Int
  | none => 0
  | some t => t.n

/-- `transfer.BPS`: returns 0 on a nil receiver or when no gauge is
configured, otherwise delegates to the gauge. -/
def BPS : Option Transfer → Float
  | none => 0
  | some t =>
    match t.gauge with
    | none => 0
    | some g => g.bps

/-- A destination writer that accepts every chunk in full and never
fails. -/
def goodWriter : Nat → List Nat → Nat × Option GoErr :=
  fun _ d => (d.length, none)

/-- An environment with no cancellation, a fully accepting writer and no
rate limiter. -/
def cleanEnv : CopyEnv :=
  ⟨none, goodWriter, none⟩

lemma step_clean (i : Nat) (ev : ReadEv) (h : ev.er = none) :
    step cleanEnv i ev = ⟨ev.data.length, ev.data, none⟩ := by
  by_cases hd : 0 < ev.data.length
  · simp [step, cleanEnv, goodWriter, h, hd, List.take_length]
  · have hnil : ev.data = [] := by
      cases hz : ev.data with
      | nil => rfl
      | cons a l => simp [hz] at hd
    simp [step, h, hnil]

lemma copyLoop_clean : ∀ (evs : List ReadEv) (i w : Nat) (tr out : List Nat),
    (∀ ev ∈ evs, ev.er = none) →
    (copyLoop cleanEnv evs i w tr out).out = out ++ (evs.map ReadEv.data).flatten ∧
    (copyLoop cleanEnv evs i w tr out).err = none ∧
    (copyLoop cleanEnv evs i w tr out).written = w + ((evs.map ReadEv.data).flatten).length ∧
    (copyLoop cleanEnv evs i w tr out).reads = evs.length + 1 := by
  intro evs
  induction evs with
  | nil =>
    intro i w tr out _
    simp [copyLoop, cleanEnv, ctxDone]
  | cons ev rest ih =>
    intro i w tr out h
    have hev : ev.er = none := h ev (by simp)
    have hrest : ∀ e ∈ rest, e.er = none := fun e he => h e (by simp [he])
    obtain ⟨h1, h2, h3, h4⟩ :=
      ih (i + 1) (w + ev.data.length)
        (if 0 < ev.data.length then tr ++ [w + ev.data.length] else tr)
        (out ++ ev.data) hrest
    have hc : ctxDone cleanEnv.cancelAt i = false := rfl
    simp only [copyLoop, hc, step_clean i ev hev, bumpReads, Bool.false_eq_true,
      if_false]
    refine ⟨?_, ?_, ?_, ?_⟩ <;>
      simp [h1, h2, h3, h4, List.append_assoc, Nat.add_assoc]

/-- C1: with no cancellation and no rate limiter, `transfer.copy`
streams the source to the destination until a clean end-of-stream: every
chunk read — including short reads with no error — is offered to and
accepted by the writer in full, the clean read termination ends the loop
with a nil error, and `copy` returns the total number of bytes
written. -/
theorem copy_streams_until_clean_eof (evs : List ReadEv)
    (h : ∀ ev ∈ evs, ev.er = none) :
    (copy cleanEnv evs).out = (evs.map ReadEv.data).flatten ∧
    (copy cleanEnv evs).err = none ∧
    (copy cleanEnv evs).written = ((evs.map ReadEv.data).flatten).length := by
  obtain ⟨h1, h2, h3, _⟩ := copyLoop_clean evs 0 0 [] [] h
  exact ⟨by simpa [copy] using h1, by simpa [copy] using h2, by simpa [copy] using h3⟩

/-- Concrete run of `copy_streams_until_clean_eof`: two chunks, the
second a short read, are both written in full and the run ends cleanly. -/
theorem copy_streams_until_clean_eof_witness :
    (copy cleanEnv [⟨[7, 8], none⟩, ⟨[9], none⟩]).out =
      (([⟨[7, 8], none⟩, ⟨[9], none⟩] : List ReadEv).map ReadEv.data).flatten ∧
    (copy cleanEnv [⟨[7, 8], none⟩, ⟨[9], none⟩]).err = none ∧
    (copy cleanEnv [⟨[7, 8], none⟩, ⟨[9], none⟩]).written =
      ((([⟨[7, 8], none⟩, ⟨[9], none⟩] : List ReadEv).map ReadEv.data).flatten).length :=
  copy_streams_until_clean_eof [⟨[7, 8], none⟩, ⟨[9], none⟩] (by decide)

/-- The same environment with a context that never fires. -/
def noCancel (env : CopyEnv) : CopyEnv :=
  ⟨none, env.write, env.lim⟩

lemma step_noCancel (env : CopyEnv) (i : Nat) (ev : ReadEv) :
    step (noCancel env) i ev = step env i ev := rfl

lemma copyLoop_reads_le (env : CopyEnv) : ∀ (evs : List ReadEv) (i w : Nat)
    (tr out : List Nat), (copyLoop env evs i w tr out).reads ≤ evs.length + 1 := by
  intro evs
  induction evs with
  | nil =>
    intro i w tr out
    cases hd : ctxDone env.cancelAt i <;> simp [copyLoop, hd]
  | cons ev rest ih =>
    intro i w tr out
    cases hd : ctxDone env.cancelAt i
    · rcases hstop : (step env i ev).stop with _ | e
      · have := ih (i + 1) (w + (step env i ev).dw)
          (if 0 < (step env i ev).dw then tr ++ [w + (step env i ev).dw] else tr)
          (out ++ (step env i ev).dout)
        simp only [copyLoop, hd, hstop, bumpReads, List.length_cons]
        simp only [Bool.false_eq_true, if_false]
        omega
      · simp [copyLoop, hd, hstop]
    · simp [copyLoop, hd]

lemma copyLoop_cancel (env : CopyEnv) (k : Nat) (hk : env.cancelAt = some k) :
    ∀ (evs : List ReadEv) (i w : Nat) (tr out : List Nat), i ≤ k →
    copyLoop env evs i w tr out =
      (if (copyLoop (noCancel env) (evs.take (k - i)) i w tr out).reads = (k - i) + 1
       then ⟨(copyLoop (noCancel env) (evs.take (k - i)) i w tr out).written,
             some .canceled, k - i,
             (copyLoop (noCancel env) (evs.take (k - i)) i w tr out).trace,
             (copyLoop (noCancel env) (evs.take (k - i)) i w tr out).out⟩
       else copyLoop (noCancel env) (evs.take (k - i)) i w tr out) := by
  intro evs
  induction evs with
  | nil =>
    intro i w tr out hik
    rcases Nat.eq_or_lt_of_le hik with heq | hlt
    · subst heq
      have hd : ctxDone env.cancelAt i = true := by rw [hk]; simp [ctxDone]
      have hdn : ctxDone (noCancel env).cancelAt i = false := rfl
      simp [copyLoop, hd, hdn, Nat.sub_self]
    · have hd : ctxDone env.cancelAt i = false := by
        rw [hk]; simp [ctxDone]; omega
      have hdn : ctxDone (noCancel env).cancelAt i = false := rfl
      have hne : (1 : Nat) ≠ (k - i) + 1 := by omega
      simp [copyLoop, hd, hdn, hne]
  | cons ev rest ih =>
    intro i w tr out hik
    rcases Nat.eq_or_lt_of_le hik with heq | hlt
    · subst heq
      have hd : ctxDone env.cancelAt i = true := by rw [hk]; simp [ctxDone]
      have hdn : ctxDone (noCancel env).cancelAt i = false := rfl
      simp [copyLoop, hd, hdn, Nat.sub_self]
    · have hd : ctxDone env.cancelAt i = false := by
        rw [hk]; simp [ctxDone]; omega
      have hdn : ctxDone (noCancel env).cancelAt i = false := rfl
      have hteq : k - i = (k - (i + 1)) + 1 := by omega
      rw [hteq, List.take_succ_cons]
      rcases hstop : (step env i ev).stop with _ | e
      · simp only [copyLoop, hd, hdn, step_noCancel, hstop, Bool.false_eq_true, if_false]
        rw [ih (i + 1) (w + (step env i ev).dw)
          (if 0 < (step env i ev).dw then tr ++ [w + (step env i ev).dw] else tr)
          (out ++ (step env i ev).dout) (by omega)]
        by_cases hp :
          (copyLoop (noCancel env) (rest.take (k - (i + 1))) (i + 1)
            (w + (step env i ev).dw)
            (if 0 < (step env i ev).dw then tr ++ [w + (step env i ev).dw] else tr)
            (out ++ (step env i ev).dout)).reads = (k - (i + 1)) + 1
        · simp [hp, bumpReads]
        · have hp' :
            (copyLoop (noCancel env) (rest.take (k - (i + 1))) (i + 1)
              (w + (step env i ev).dw)
              (if 0 < (step env i ev).dw then tr ++ [w + (step env i ev).dw] else tr)
              (out ++ (step env i ev).dout)).reads + 1 ≠ (k - (i + 1)) + 1 + 1 := by
            omega
          simp [hp, hp', bumpReads]
      · have hne : (1 : Nat) ≠ (k - (i + 1)) + 1 + 1 := by omega
        simp [copyLoop, hd, hdn, step_noCancel, hstop, hne]

/-- C3: the transfer loop checks its context before every read. With a
context canceled from iteration `k` on, `transfer.copy` performs at most
`k` reads; and it behaves exactly as the uncanceled loop restricted to
the first `k` read results — if that restricted loop would still be
reading at iteration `k`, `copy` instead returns the cancellation error
together with the byte count already written by those first `k`
iterations (bytes written before cancellation are preserved). -/
theorem copy_checks_cancellation (env : CopyEnv) (evs : List ReadEv) (k : Nat)
    (hk : env.cancelAt = some k) :
    (copy env evs).reads ≤ k ∧
    copy env evs =
      (if (copy (noCancel env) (evs.take k)).reads = k + 1
       then ⟨(copy (noCancel env) (evs.take k)).written, some .canceled, k,
             (copy (noCancel env) (evs.take k)).trace,
             (copy (noCancel env) (evs.take k)).out⟩
       else copy (noCancel env) (evs.take k)) := by
  have heq := copyLoop_cancel env k hk evs 0 0 [] [] (Nat.zero_le k)
  simp only [Nat.sub_zero] at heq
  constructor
  · rw [copy, heq]
    by_cases hp : (copyLoop (noCancel env) (evs.take k) 0 0 [] []).reads = k + 1
    · simp [hp]
    · have hle := copyLoop_reads_le (noCancel env) (evs.take k) 0 0 [] []
      have hlen : (evs.take k).length ≤ k := by
        simp [List.length_take]
      simp only [hp, if_false]
      omega
  · simpa [copy] using heq

/-- Concrete run of `copy_checks_cancellation`: with the context
canceled from iteration 1 on, only the first chunk is read and written,
and `copy` returns the cancellation error with that byte count. -/
theorem copy_checks_cancellation_witness :
    (copy ⟨some 1, goodWriter, none⟩ [⟨[5], none⟩, ⟨[6], none⟩]).reads ≤ 1 ∧
    copy ⟨some 1, goodWriter, none⟩ [⟨[5], none⟩, ⟨[6], none⟩] =
      (if (copy (noCancel ⟨some 1, goodWriter, none⟩)
            (([⟨[5], none⟩, ⟨[6], none⟩] : List ReadEv).take 1)).reads = 1 + 1
       then ⟨(copy (noCancel ⟨some 1, goodWriter, none⟩)
               (([⟨[5], none⟩, ⟨[6], none⟩] : List ReadEv).take 1)).written,
             some .canceled, 1,
             (copy (noCancel ⟨some 1, goodWriter, none⟩)
               (([⟨[5], none⟩, ⟨[6], none⟩] : List ReadEv).take 1)).trace,
             (copy (noCancel ⟨some 1, goodWriter, none⟩)
               (([⟨[5], none⟩, ⟨[6], none⟩] : List ReadEv).take 1)).out⟩
       else copy (noCancel ⟨some 1, goodWriter, none⟩)
              (([⟨[5], none⟩, ⟨[6], none⟩] : List ReadEv).take 1)) :=
  copy_checks_cancellation ⟨some 1, goodWriter, none⟩ [⟨[5], none⟩, ⟨[6], none⟩] 1 rfl

/-- A rate limiter whose `WaitN` succeeds until its `j`-th invocation,
which returns the error `e` (a limiter-internal failure, or cancellation
propagated through the limiter when `e` is the cancellation error). -/
def mkLim (j : Nat) (e : GoErr) : Nat → Nat → Option GoErr :=
  fun i _ => if i = j then some e else none

lemma step_lim_hit (m : Nat) (e : GoErr) (ev : ReadEv) (h2 : ev.data ≠ []) :
    step ⟨none, goodWriter, some (mkLim m e)⟩ m ev =
      ⟨ev.data.length, ev.data, some (some e)⟩ := by
  have hd : 0 < ev.data.length := List.length_pos.mpr h2
  simp [step, goodWriter, mkLim, hd, List.take_length]

lemma step_lim_miss (m i : Nat) (e : GoErr) (ev : ReadEv)
    (h1 : ev.er = none) (h2 : ev.data ≠ []) (hne : i ≠ m) :
    step ⟨none, goodWriter, some (mkLim m e)⟩ i ev =
      ⟨ev.data.length, ev.data, none⟩ := by
  have hd : 0 < ev.data.length := List.length_pos.mpr h2
  simp [step, goodWriter, mkLim, h1, hd, hne, List.take_length]

lemma copyLoop_lim (e : GoErr) : ∀ (evs : List ReadEv) (j i m w : Nat)
    (tr out : List Nat), m = i + j → j < evs.length →
    (∀ ev ∈ evs, ev.er = none ∧ ev.data ≠ []) →
    (copyLoop ⟨none, goodWriter, some (mkLim m e)⟩ evs i w tr out).err = some e ∧
    (copyLoop ⟨none, goodWriter, some (mkLim m e)⟩ evs i w tr out).reads = j + 1 ∧
    (copyLoop ⟨none, goodWriter, some (mkLim m e)⟩ evs i w tr out).written =
      w + (((evs.take (j + 1)).map ReadEv.data).flatten).length := by
  intro evs
  induction evs with
  | nil =>
    intro j i m w tr out _ hj _
    simp at hj
  | cons ev rest ih =>
    intro j i m w tr out hm hj h
    have hev := h ev (by simp)
    have hrest : ∀ x ∈ rest, x.er = none ∧ x.data ≠ [] :=
      fun x hx => h x (by simp [hx])
    have hdn : ctxDone (⟨none, goodWriter, some (mkLim m e)⟩ : CopyEnv).cancelAt i =
        false := rfl
    cases j with
    | zero =>
      have hmi : m = i := by omega
      subst hmi
      simp [copyLoop, hdn, step_lim_hit m e ev hev.2]
    | succ j' =>
      have hne : i ≠ m := by omega
      obtain ⟨e1, e2, e3⟩ := ih j' (i + 1) m (w + ev.data.length)
        (if 0 < ev.data.length then tr ++ [w + ev.data.length] else tr)
        (out ++ ev.data) (by omega) (by simpa using hj) hrest
      simp only [copyLoop, hdn, step_lim_miss m i e ev hev.1 hev.2 hne,
        Bool.false_eq_true, if_false, bumpReads]
      refine ⟨by simpa using e1, by simp [e2], ?_⟩
      simp only [List.take_succ_cons, List.map_cons, List.flatten_cons,
        List.length_append]
      simp only [e3]
      omega

/-- C4: with a configured rate limiter, the loop awaits the limiter
after each successful write; the first error the limiter returns
(including a propagated cancellation) terminates `transfer.copy`
immediately — exactly `j + 1` reads happen when the error comes on the
limiter's call for iteration `j` — and the returned count still includes
every byte written up to and including that iteration. -/
theorem copy_limiter_error_terminal (evs : List ReadEv) (j : Nat) (e : GoErr)
    (hj : j < evs.length) (h : ∀ ev ∈ evs, ev.er = none ∧ ev.data ≠ []) :
    (copy ⟨none, goodWriter, some (mkLim j e)⟩ evs).err = some e ∧
    (copy ⟨none, goodWriter, some (mkLim j e)⟩ evs).reads = j + 1 ∧
    (copy ⟨none, goodWriter, some (mkLim j e)⟩ evs).written =
      (((evs.take (j + 1)).map ReadEv.data).flatten).length := by
  have := copyLoop_lim e evs j 0 j 0 [] [] (by omega) hj h
  simpa [copy] using this

/-- Concrete run of `copy_limiter_error_terminal`: the limiter fails on
its second call; the two chunks written before the failure are counted. -/
theorem copy_limiter_error_terminal_witness :
    (copy ⟨none, goodWriter, some (mkLim 1 (.limErr 0))⟩
      [⟨[1], none⟩, ⟨[2, 3], none⟩, ⟨[4], none⟩]).err = some (.limErr 0) ∧
    (copy ⟨none, goodWriter, some (mkLim 1 (.limErr 0))⟩
      [⟨[1], none⟩, ⟨[2, 3], none⟩, ⟨[4], none⟩]).reads = 1 + 1 ∧
    (copy ⟨none, goodWriter, some (mkLim 1 (.limErr 0))⟩
      [⟨[1], none⟩, ⟨[2, 3], none⟩, ⟨[4], none⟩]).written =
      (((([⟨[1], none⟩, ⟨[2, 3], none⟩, ⟨[4], none⟩] : List ReadEv).take
        (1 + 1)).map ReadEv.data).flatten).length :=
  copy_limiter_error_terminal [⟨[1], none⟩, ⟨[2, 3], none⟩, ⟨[4], none⟩] 1
    (.limErr 0) (by decide) (by decide)

lemma copyLoop_trace (env : CopyEnv) : ∀ (evs : List ReadEv) (i w : Nat)
    (tr out : List Nat), ∃ s : List Nat,
    (copyLoop env evs i w tr out).trace = tr ++ s ∧
    List.Chain' (· ≤ ·) (w :: s) ∧
    (w :: s).getLast? = some (copyLoop env evs i w tr out).written ∧
    (∀ x ∈ s, x ≤ (copyLoop env evs i w tr out).written) ∧
    w ≤ (copyLoop env evs i w tr out).written := by
  intro evs
  induction evs with
  | nil =>
    intro i w tr out
    refine ⟨[], ?_⟩
    cases hd : ctxDone env.cancelAt i <;> simp [copyLoop, hd]
  | cons ev rest ih =>
    intro i w tr out
    cases hd : ctxDone env.cancelAt i
    · rcases hstop : (step env i ev).stop with _ | e
      · obtain ⟨s', h1, h2, h3, h4, h5⟩ := ih (i + 1) (w + (step env i ev).dw)
          (if 0 < (step env i ev).dw then tr ++ [w + (step env i ev).dw] else tr)
          (out ++ (step env i ev).dout)
        refine ⟨(if 0 < (step env i ev).dw then [w + (step env i ev).dw] else []) ++ s',
          ?_, ?_, ?_, ?_, ?_⟩
        · simp only [copyLoop, hd, hstop, Bool.false_eq_true, if_false, bumpReads]
          by_cases hdw : 0 < (step env i ev).dw <;>
            simp [hdw] at h1 ⊢ <;> simp [h1]
        · by_cases hdw : 0 < (step env i ev).dw
          · simp only [hdw, if_true, List.singleton_append]
            exact List.chain'_cons.mpr ⟨Nat.le_add_right w _, h2⟩
          · have hz : (step env i ev).dw = 0 := by omega
            simpa [hdw, hz] using h2
        · simp only [copyLoop, hd, hstop, Bool.false_eq_true, if_false, bumpReads]
          by_cases hdw : 0 < (step env i ev).dw
          · simpa [hdw, List.getLast?_cons_cons] using h3
          · have hz : (step env i ev).dw = 0 := by omega
            simpa [hdw, hz] using h3
        · simp only [copyLoop, hd, hstop, Bool.false_eq_true, if_false, bumpReads]
          intro x hx
          by_cases hdw : 0 < (step env i ev).dw
          · simp [hdw] at hx
            rcases hx with hx | hx
            · subst hx; exact h5
            · exact h4 x hx
          · simp [hdw] at hx
            exact h4 x hx
        · simp only [copyLoop, hd, hstop, Bool.false_eq_true, if_false, bumpReads]
          exact le_trans (Nat.le_add_right w _) h5
      · refine ⟨if 0 < (step env i ev).dw then [w + (step env i ev).dw] else [],
          ?_, ?_, ?_, ?_, ?_⟩
        · by_cases hdw : 0 < (step env i ev).dw <;>
            simp [copyLoop, hd, hstop, hdw]
        · by_cases hdw : 0 < (step env i ev).dw
          · simp [hdw, List.chain'_pair]
          · simp [hdw]
        · by_cases hdw : 0 < (step env i ev).dw
          · simp [copyLoop, hd, hstop, hdw]
          · have hz : (step env i ev).dw = 0 := by omega
            simp [copyLoop, hd, hstop, hdw, hz]
        · intro x hx
          by_cases hdw : 0 < (step env i ev).dw
          · simp [hdw] at hx
            simp [copyLoop, hd, hstop, hx]
          · simp [hdw] at hx
        · simp only [copyLoop, hd, hstop, Bool.false_eq_true, if_false]
          omega
    · exact ⟨[], by simp [copyLoop, hd]⟩

/-- C5: the stored values of the transferred-byte counter over one
`transfer.copy` run (the successive arguments of
`atomic.StoreInt64(&c.n, written)`, which `transfer.N` reads with an
atomic load) are monotonically non-decreasing starting from the
constructor's 0, never exceed the byte count `copy` finally returns, and
the last stored value (0 when no store happened) equals exactly that
returned count. -/
theorem copy_counter_monotone (env : CopyEnv) (evs : List ReadEv) :
    List.Chain' (· ≤ ·) (0 :: (copy env evs).trace) ∧
    (∀ x ∈ (copy env evs).trace, x ≤ (copy env evs).written) ∧
    (0 :: (copy env evs).trace).getLast? = some (copy env evs).written := by
  obtain ⟨s, h1, h2, h3, h4, _⟩ := copyLoop_trace env evs 0 0 [] []
  have hs : (copy env evs).trace = s := by simpa [copy] using h1
  refine ⟨?_, ?_, ?_⟩
  · rw [hs]; exact h2
  · intro x hx
    rw [hs] at hx
    simpa [copy] using h4 x hx
  · rw [hs]
    simpa [copy] using h3

/-- Concrete run of `copy_counter_monotone` on a clean two-chunk
stream. -/
theorem copy_counter_monotone_witness :
    List.Chain' (· ≤ ·) (0 :: (copy cleanEnv [⟨[1], none⟩, ⟨[2, 3], none⟩]).trace) ∧
    (∀ x ∈ (copy cleanEnv [⟨[1], none⟩, ⟨[2, 3], none⟩]).trace,
      x ≤ (copy cleanEnv [⟨[1], none⟩, ⟨[2, 3], none⟩]).written) ∧
    (0 :: (copy cleanEnv [⟨[1], none⟩, ⟨[2, 3], none⟩]).trace).getLast? =
      some (copy cleanEnv [⟨[1], none⟩, ⟨[2, 3], none⟩]).written :=
  copy_counter_monotone cleanEnv [⟨[1], none⟩, ⟨[2, 3], none⟩]

/-- C10: the progress accessors of a transfer are total on a nil
receiver: `transfer.N` on a nil `*transfer` returns 0, `transfer.BPS` on
a nil `*transfer` returns 0, and `BPS` on any transfer with no gauge
configured (in particular the one `newTransfer` builds) returns 0 — in
every case the nil checks fire before any field access. -/
theorem progress_accessors_nil_safe :
    N none = 0 ∧ BPS none = 0 ∧ (∀ n : Int, BPS (some ⟨n, none⟩) = 0) ∧
    BPS (some newTransfer) = 0 :=
  ⟨rfl, rfl, fun _ => rfl, rfl⟩

/-- A parsed `Content-Range` header, retaining the declared start offset
of the range the server claims to be serving. -/
structure ContentRange where
  start : Nat
deriving DecidableEq, Repr

/-- The Response fields involved in resume validation: whether the
transfer resumed from a local file, the resumed offset, and the terminal
error slot. -/
structure RespState where
  didResume : Bool
  bytesResumed : Nat
  err : Option GoErr
deriving DecidableEq, Repr

/-- Modelled from the spec: the Content-Range validation that
`Client.getRequest` performs on the transfer response (the function's
implementation is exercised only through `TestClient_getRequest_ContentRange`).
Per §4.1 step 3 of the specification: if `DidResume` and the server
returns a `Content-Range`, its declared start must equal `bytesResumed`
— a mismatch assigns a terminal resume-consistency error; a missing
`Content-Range` while resuming is tolerated; if not resuming, no range
validation occurs at all. -/
def getRequestRangeCheck (resp : RespState) (hdr : Option ContentRange) : RespState :=
  if resp.didResume then
    match hdr with
    | some cr =>
      if cr.start ≠ resp.bytesResumed then
        ⟨resp.didResume, resp.bytesResumed, some .resumeMismatch⟩
      else resp
    | none => resp
  else resp

/-- C2: while resuming with `bytesResumed = k`, a `Content-Range` whose
declared start differs from `k` assigns the terminal resume-consistency
error, a matching start assigns none, an absent header assigns none, and
a non-resuming transfer performs no range validation whatsoever (the
Response is untouched for every header). -/
theorem getRequest_validates_resume_range :
    (∀ k s : Nat,
      (getRequestRangeCheck ⟨true, k, none⟩ (some ⟨s⟩)).err =
        (if s = k then none else some .resumeMismatch)) ∧
    (∀ k : Nat, getRequestRangeCheck ⟨true, k, none⟩ none = ⟨true, k, none⟩) ∧
    (∀ (k : Nat) (e : Option GoErr) (hdr : Option ContentRange),
      getRequestRangeCheck ⟨false, k, e⟩ hdr = ⟨false, k, e⟩) := by
  refine ⟨fun k s => ?_, fun k => rfl, fun k e hdr => ?_⟩
  · by_cases h : s = k <;> simp [getRequestRangeCheck, h]
  · cases hdr <;> rfl

/-- The `Content-Disposition` header as seen by filename resolution:
absent, present but not syntactically well-formed (media-type parse
failure), well-formed but without a `filename` parameter, or well-formed
with a `filename` parameter (possibly empty). -/
inductive Disposition where
  | absent
  | malformed
  | noFilenameParam
  | filename (s : List Char)
deriving DecidableEq, Repr

/-- Split a character list on the `/` separator, yielding the
slash-separated segments of a URL path. -/
def splitSlash : List Char → List (List Char)
  | [] => [[]]
  | c :: rest =>
    match splitSlash rest with
    | [] => [[]]
    | p :: ps => if c = '/' then [] :: p :: ps else (c :: p) :: ps

/-- Lexical cleaning of a rooted path, segment by segment: empty and `.`
segments vanish, a `..` segment removes the directory before it (a pop
on an empty stack is a no-op, as for a rooted path), and anything else
is a real segment. -/
def cleanSegs (ps : List (List Char)) : List (List Char) :=
  ps.foldl
    (fun st p =>
      if p = [] ∨ p = ['.'] then st
      else if p = ['.', '.'] then st.dropLast
      else st ++ [p])
    []

/-- Modelled from the spec (§4.5): reduce a candidate filename to its
base name only — the last real segment once directory components and
parent-traversal segments are stripped; a candidate with no real
segment reduces to the root marker. -/
def stripToBase (cs : List Char) : List Char :=
  match (cleanSegs (splitSlash cs)).getLast? with
  | some p => p
  | none => ['/']

/-- Modelled from the spec (§4.5): the sanitization applied to the
candidate filename — an empty candidate or one ending in a slash has no
usable segment, and so does a candidate whose base-name reduction leaves
no real segment; each fails with the distinguished `ErrNoFilename`. -/
def sanitize (candidate : List Char) : Except GoErr (List Char) :=
  if candidate = [] then .error .noFilename
  else if candidate.getLast? = some '/' then .error .noFilename
  else
    if stripToBase candidate = [] ∨ stripToBase candidate = ['.'] ∨
        stripToBase candidate = ['/'] then .error .noFilename
    else .ok (stripToBase candidate)

/-- Modelled from the spec: `guessFilename`, whose implementation is
exercised only through the repository's tests. A well-formed
`Content-Disposition` carrying a `filename` parameter replaces the URL
path as the candidate (even when the parameter is empty — "empty
post-stripped disposition filename" is a failure per §4.5); in every
other case the URL path is the candidate; the candidate is then
sanitized and reduced to its base name. -/
def guessFilename (urlPath : List Char) (d : Disposition) : Except GoErr (List Char) :=
  sanitize
    (match d with
     | .filename s => s
     | _ => urlPath)

/-- Modelled from the spec (§4.5): destination filename resolution for a
Request — an explicit filename in the Request wins; otherwise
`guessFilename` runs on the response's header and URL. -/
def resolveFilename (reqFilename urlPath : List Char) (d : Disposition) :
    Except GoErr (List Char) :=
  if reqFilename = [] then guessFilename urlPath d else .ok reqFilename

lemma splitSlash_no_slash : ∀ (cs : List Char), ∀ p ∈ splitSlash cs, '/' ∉ p := by
  intro cs
  induction cs with
  | nil =>
    intro p hp
    simp only [splitSlash, List.mem_singleton] at hp
    simp [hp]
  | cons c rest ih =>
    intro p hp
    rw [splitSlash] at hp
    cases hsp : splitSlash rest with
    | nil =>
      rw [hsp] at hp
      simp only [List.mem_singleton] at hp
      simp [hp]
    | cons q qs =>
      rw [hsp] at hp
      by_cases hc : c = '/'
      · simp only [hc, if_true, List.mem_cons] at hp
        rcases hp with hp | hp | hp
        · simp [hp]
        · exact hp ▸ ih q (by rw [hsp]; exact List.mem_cons_self q qs)
        · exact ih p (by rw [hsp]; exact List.mem_cons_of_mem q hp)
      · simp only [hc, if_false, List.mem_cons] at hp
        rcases hp with hp | hp
        · subst hp
          intro hmem
          rcases List.mem_cons.mp hmem with hh | hh
          · exact hc hh.symm
          · exact ih q (by rw [hsp]; exact List.mem_cons_self q qs) hh
        · exact ih p (by rw [hsp]; exact List.mem_cons_of_mem q hp)

/-- The property every segment surviving `cleanSegs` enjoys: it is a
real path segment — non-empty, not `.`, not `..`, and slash-free. -/
def realSeg (q : List Char) : Prop :=
  q ≠ [] ∧ q ≠ ['.'] ∧ q ≠ ['.', '.'] ∧ '/' ∉ q

lemma cleanSegs_foldl_mem : ∀ (ps : List (List Char)) (st : List (List Char)),
    (∀ p ∈ ps, '/' ∉ p) → (∀ q ∈ st, realSeg q) →
    ∀ q ∈ ps.foldl
      (fun st p =>
        if p = [] ∨ p = ['.'] then st
        else if p = ['.', '.'] then st.dropLast
        else st ++ [p]) st, realSeg q := by
  intro ps
  induction ps with
  | nil =>
    intro st _ hst q hq
    exact hst q hq
  | cons p rest ih =>
    intro st h hst q hq
    simp only [List.foldl_cons] at hq
    have hp := h p (by simp)
    have hrest : ∀ x ∈ rest, '/' ∉ x := fun x hx => h x (by simp [hx])
    by_cases h1 : p = [] ∨ p = ['.']
    · rw [if_pos h1] at hq
      exact ih st hrest hst q hq
    · rw [if_neg h1] at hq
      by_cases h2 : p = ['.', '.']
      · rw [if_pos h2] at hq
        exact ih _ hrest (fun x hx => hst x (List.mem_of_mem_dropLast hx)) q hq
      · rw [if_neg h2] at hq
        refine ih _ hrest ?_ q hq
        intro x hx
        rcases List.mem_append.mp hx with hx | hx
        · exact hst x hx
        · push_neg at h1
          simp only [List.mem_singleton] at hx
          subst hx
          exact ⟨h1.1, h1.2, h2, hp⟩

lemma stripToBase_prop (cs : List Char) :
    stripToBase cs = ['/'] ∨ realSeg (stripToBase cs) := by
  rw [stripToBase]
  cases hl : (cleanSegs (splitSlash cs)).getLast? with
  | none => left; rfl
  | some p =>
    right
    have hx : p ∈ (cleanSegs (splitSlash cs)).getLast? := by
      rw [hl]
      exact rfl
    have hpl : p ∈ cleanSegs (splitSlash cs) := by
      obtain ⟨hne, hp⟩ := List.mem_getLast?_eq_getLast hx
      rw [hp]
      exact List.getLast_mem hne
    rw [cleanSegs] at hpl
    exact cleanSegs_foldl_mem (splitSlash cs) [] (splitSlash_no_slash cs)
      (by simp) p hpl

lemma sanitize_ok (c s : List Char) (h : sanitize c = .ok s) :
    '/' ∉ s ∧ s ≠ ['.', '.'] ∧ s ≠ ['.'] ∧ s ≠ [] := by
  rw [sanitize] at h
  by_cases h1 : c = []
  · rw [if_pos h1] at h
    exact Except.noConfusion h
  · rw [if_neg h1] at h
    by_cases h2 : c.getLast? = some '/'
    · rw [if_pos h2] at h
      exact Except.noConfusion h
    · rw [if_neg h2] at h
      by_cases h3 : stripToBase c = [] ∨ stripToBase c = ['.'] ∨
          stripToBase c = ['/']
      · rw [if_pos h3] at h
        exact Except.noConfusion h
      · rw [if_neg h3] at h
        have hs : stripToBase c = s := Except.ok.inj h
        push_neg at h3
        rcases stripToBase_prop c with hx | hx
        · exact absurd hx h3.2.2
        · rw [hs] at hx
          exact ⟨hx.2.2.2, hx.2.2.1, hx.2.1, hx.1⟩

/-- C7: whenever `guessFilename` succeeds, the resolved name is a base
name only — it contains no directory separator and is not a
parent-traversal segment (nor `.` nor empty), so neither the server's
`Content-Disposition` nor the URL path can redirect output outside the
destination directory. -/
theorem guessFilename_yields_base_name (urlPath : List Char) (d : Disposition)
    (s : List Char) (h : guessFilename urlPath d = .ok s) :
    '/' ∉ s ∧ s ≠ ['.', '.'] ∧ s ≠ ['.'] ∧ s ≠ [] := by
  cases d with
  | filename s2 => exact sanitize_ok s2 s h
  | absent => exact sanitize_ok urlPath s h
  | malformed => exact sanitize_ok urlPath s h
  | noFilenameParam => exact sanitize_ok urlPath s h

/-- Concrete run of `guessFilename_yields_base_name`: the traversal path
`/../etc/passwd` resolves to the bare base name `passwd`. -/
theorem guessFilename_yields_base_name_witness :
    '/' ∉ (['p', 'a', 's', 's', 'w', 'd'] : List Char) ∧
    (['p', 'a', 's', 's', 'w', 'd'] : List Char) ≠ ['.', '.'] ∧
    (['p', 'a', 's', 's', 'w', 'd'] : List Char) ≠ ['.'] ∧
    (['p', 'a', 's', 's', 'w', 'd'] : List Char) ≠ [] :=
  guessFilename_yields_base_name
    ['/', '.', '.', '/', 'e', 't', 'c', '/', 'p', 'a', 's', 's', 'w', 'd'] .absent
    ['p', 'a', 's', 's', 'w', 'd'] rfl

/-- C6: filename resolution precedence — an explicit Request filename
wins; a well-formed, non-empty `Content-Disposition` filename is used
(reduced to its base name) regardless of the URL; otherwise resolution
falls back to the URL path, whose usable final segment is used; and an
empty candidate, a trailing-slash candidate, or an empty post-stripped
disposition filename fails with the distinguished `ErrNoFilename`. -/
theorem filename_resolution_precedence :
    (∀ (fn url : List Char) (d : Disposition), fn ≠ [] →
      resolveFilename fn url d = .ok fn) ∧
    (∀ (url s : List Char), s ≠ [] → s.getLast? ≠ some '/' →
      ¬(stripToBase s = [] ∨ stripToBase s = ['.'] ∨ stripToBase s = ['/']) →
      resolveFilename [] url (.filename s) = .ok (stripToBase s)) ∧
    (∀ (url : List Char) (d : Disposition),
      d = .absent ∨ d = .malformed ∨ d = .noFilenameParam →
      resolveFilename [] url d = sanitize url) ∧
    (∀ url : List Char, url ≠ [] → url.getLast? ≠ some '/' →
      ¬(stripToBase url = [] ∨ stripToBase url = ['.'] ∨ stripToBase url = ['/']) →
      resolveFilename [] url .absent = .ok (stripToBase url)) ∧
    sanitize [] = .error .noFilename ∧
    (∀ c : List Char, c.getLast? = some '/' → sanitize c = .error .noFilename) ∧
    (∀ url : List Char, resolveFilename [] url (.filename []) = .error .noFilename) := by
  refine ⟨?_, ?_, ?_, ?_, rfl, ?_, ?_⟩
  · intro fn url d hfn
    rw [resolveFilename, if_neg hfn]
  · intro url s h1 h2 h3
    show sanitize s = .ok (stripToBase s)
    rw [sanitize, if_neg h1, if_neg h2, if_neg h3]
  · intro url d hd
    rcases hd with hd | hd | hd <;> subst hd <;> rfl
  · intro url h1 h2 h3
    show sanitize url = .ok (stripToBase url)
    rw [sanitize, if_neg h1, if_neg h2, if_neg h3]
  · intro c hc
    rw [sanitize]
    by_cases h1 : c = []
    · simp [h1]
    · rw [if_neg h1, if_pos hc]
  · intro url
    rfl

/-- Concrete runs of `filename_resolution_precedence`: an explicit
Request filename wins, a disposition filename beats the URL, the URL's
final segment is the fallback, and a trailing slash fails. -/
theorem filename_resolution_precedence_witness :
    resolveFilename ['r'] ['/', 'a'] .absent = .ok ['r'] ∧
    resolveFilename [] ['/', 'u'] (.filename ['d', '.', 'p']) =
      .ok (stripToBase ['d', '.', 'p']) ∧
    resolveFilename [] ['/', 'a', '/', 'b'] .malformed =
      sanitize ['/', 'a', '/', 'b'] ∧
    resolveFilename [] ['/', 'a', '/', 'b'] .absent =
      .ok (stripToBase ['/', 'a', '/', 'b']) ∧
    sanitize ['p', '/'] = .error .noFilename ∧
    resolveFilename [] ['/', 'z'] (.filename []) = .error .noFilename :=
  ⟨filename_resolution_precedence.1 ['r'] ['/', 'a'] .absent (by decide),
   filename_resolution_precedence.2.1 ['/', 'u'] ['d', '.', 'p'] (by decide)
     (by decide) (by decide),
   filename_resolution_precedence.2.2.1 ['/', 'a', '/', 'b'] .malformed
     (Or.inr (Or.inl rfl)),
   filename_resolution_precedence.2.2.2.1 ['/', 'a', '/', 'b'] (by decide)
     (by decide) (by decide),
   filename_resolution_precedence.2.2.2.2.2.1 ['p', '/'] (by decide),
   filename_resolution_precedence.2.2.2.2.2.2 ['/', 'z']⟩

/-- The stat of a batch destination: missing, an existing non-directory
file, or an existing directory. -/
inductive DestCheck where
  | missing
  | file
  | dir
deriving DecidableEq, Repr

/-- One URL argument of a batch entry point, abstracted to whether the
URL parse inside `NewRequest` accepts it. -/
structure UrlInput where
  parseOk : Bool
deriving DecidableEq, Repr

set_option linter.unusedVariables false in
/-- Modelled from the spec (§4.4, §7): `GetBatch(workers, dst, urls...)`
— validate that the destination exists and is a directory, construct one
Request per URL (URL syntax is validated at Request construction), and
only then start workers. A construction-time failure returns a nil
channel together with a synchronous error, before any worker starts, so
no terminal Response is produced for it; on success the returned channel
eventually carries one terminal Response per request. The worker count
only bounds parallelism and plays no part in construction. -/
def GetBatch (workerCount : Nat) (dest : DestCheck) (urls : List UrlInput) :
    Option (List UrlInput) × Option GoErr :=
  if dest ≠ DestCheck.dir then (none, some .badDest)
  else if urls.any (fun u => !u.parseOk) then (none, some .badURL)
  else (some urls, none)

/-- Modelled from the spec (§4.4): `DownloadBatch(ctx, urls)` defaults
the destination to the current working directory (whose stat is `cwd`)
and delegates to `GetBatch`. -/
def DownloadBatch (cwd : DestCheck) (urls : List UrlInput) :
    Option (List UrlInput) × Option GoErr :=
  GetBatch 1 cwd urls

/-- C8: both batch entry points report construction-time errors — a
destination that is missing or not a directory, or any malformed URL —
synchronously as a non-nil error paired with a nil response channel;
and whenever a channel is returned there was no error and it carries
exactly one eventual terminal Response per input, so a construction
error never surfaces as a terminal Response. -/
theorem batch_construction_errors_fail_fast :
    (∀ (w : Nat) (urls : List UrlInput),
      GetBatch w .missing urls = (none, some .badDest) ∧
      GetBatch w .file urls = (none, some .badDest)) ∧
    (∀ (w : Nat) (urls : List UrlInput),
      urls.any (fun u => !u.parseOk) = true →
      GetBatch w .dir urls = (none, some .badURL)) ∧
    (∀ urls : List UrlInput,
      DownloadBatch .missing urls = (none, some .badDest) ∧
      DownloadBatch .file urls = (none, some .badDest) ∧
      (urls.any (fun u => !u.parseOk) = true →
        DownloadBatch .dir urls = (none, some .badURL))) ∧
    (∀ (w : Nat) (dest : DestCheck) (urls rs : List UrlInput),
      (GetBatch w dest urls).1 = some rs →
      (GetBatch w dest urls).2 = none ∧ rs = urls) := by
  refine ⟨fun w urls => ⟨rfl, rfl⟩, ?_, ?_, ?_⟩
  · intro w urls h
    simp [GetBatch, h]
  · intro urls
    refine ⟨rfl, rfl, fun h => ?_⟩
    simp [DownloadBatch, GetBatch, h]
  · intro w dest urls rs h
    cases dest with
    | missing => simp [GetBatch] at h
    | file => simp [GetBatch] at h
    | dir =>
      by_cases hany : urls.any (fun u => !u.parseOk) = true
      · simp [GetBatch, hany] at h
      · simp [GetBatch, hany] at h ⊢
        exact h.symm

/-- Concrete runs of `batch_construction_errors_fail_fast`: a missing
destination and a malformed URL each yield a nil channel and an error;
a valid batch yields no error and one pending Response per input. -/
theorem batch_construction_errors_fail_fast_witness :
    GetBatch 2 .missing [⟨true⟩] = (none, some .badDest) ∧
    GetBatch 2 .dir [⟨true⟩, ⟨false⟩] = (none, some .badURL) ∧
    DownloadBatch .dir [⟨false⟩] = (none, some .badURL) ∧
    ((GetBatch 2 .dir [⟨true⟩]).2 = none ∧
      ([⟨true⟩] : List UrlInput) = [⟨true⟩]) :=
  ⟨(batch_construction_errors_fail_fast.1 2 [⟨true⟩]).1,
   batch_construction_errors_fail_fast.2.1 2 [⟨true⟩, ⟨false⟩] (by decide),
   (batch_construction_errors_fail_fast.2.2.1 [⟨false⟩]).2.2 (by decide),
   batch_construction_errors_fail_fast.2.2.2 2 .dir [⟨true⟩] [⟨true⟩] rfl⟩

/-- One URL argument of the CLI download command: whether its URL
parses, and the terminal error its transfer would end with when run. -/
structure CliArg where
  parseOk : Bool
  xferErr : Option GoErr
deriving DecidableEq, Repr

/-- cmd/download.go: the per-URL download command. For each argument, a
`NewRequest` failure (invalid URL) counts one failure and skips the
transfer; otherwise the transfer runs to its terminal Response and a
non-nil `resp.Err()` counts one failure. The process exits with the
accumulated failure count (`os.Exit(failed)`). -/
def downloadCmdExit (args : List CliArg) : Nat :=
  args.foldl
    (fun failed a =>
      if !a.parseOk then failed + 1
      else if a.xferErr.isSome then failed + 1
      else failed)
    0

/-- The number of requested transfers that did not succeed: arguments
whose URL fails request construction plus arguments whose transfer ends
with a non-nil terminal error. -/
def countFailed (args : List CliArg) : Nat :=
  (args.filter (fun a => !a.parseOk || a.xferErr.isSome)).length

/-- cmd/grab/cmd/download.go: the batch-based download command. It runs
the whole argument list through `DownloadBatch`; a synchronous
construction error is printed and the process exits with code 1;
otherwise the response channel is drained and the process exits with the
count of responses carrying a non-nil `Err`. -/
def grabCmdExit (cwd : DestCheck) (args : List CliArg) : Nat :=
  match DownloadBatch cwd (args.map (fun a => ⟨a.parseOk⟩)) with
  | (_, some _) => 1
  | (_, none) => (args.filter (fun a => a.xferErr.isSome)).length

/-- C9 counterexample: invoking the batch-based download command
(cmd/grab/cmd/download.go) on two malformed URLs exits with code 1,
yet both requested transfers failed (failure count 2) — the exit code
does not equal the number of failed transfers. -/
theorem cli_exit_code_counterexample :
    grabCmdExit .dir [⟨false, none⟩, ⟨false, none⟩] = 1 ∧
    countFailed [⟨false, none⟩, ⟨false, none⟩] = 2 ∧
    grabCmdExit .dir [⟨false, none⟩, ⟨false, none⟩] ≠
      countFailed [⟨false, none⟩, ⟨false, none⟩] := by
  decide

lemma downloadCmdExit_foldl : ∀ (args : List CliArg) (n : Nat),
    args.foldl
      (fun failed a =>
        if !a.parseOk then failed + 1
        else if a.xferErr.isSome then failed + 1
        else failed)
      n = n + countFailed args := by
  intro args
  induction args with
  | nil =>
    intro n
    simp [countFailed]
  | cons a rest ih =>
    intro n
    simp only [List.foldl_cons]
    rw [ih]
    have hcf : countFailed (a :: rest) =
        (if (!a.parseOk || a.xferErr.isSome) = true then 1 else 0) +
          countFailed rest := by
      rw [countFailed, countFailed, List.filter_cons]
      by_cases hp : (!a.parseOk || a.xferErr.isSome) = true
      · simp [hp]
        omega
      · simp [hp]
    rw [hcf]
    by_cases h1 : a.parseOk <;> by_cases h2 : a.xferErr.isSome <;>
      simp [h1, h2] <;> omega

lemma any_map_parse (args : List CliArg) :
    (args.map (fun a => (⟨a.parseOk⟩ : UrlInput))).any (fun u => !u.parseOk) =
      args.any (fun a => !a.parseOk) := by
  induction args with
  | nil => rfl
  | cons a rest ih => simp [List.any_cons, ih]

/-- C9 amended: the per-URL download command (cmd/download.go) exits
with exactly the number of failed transfers — counting a URL that fails
request construction as a failure — so its exit code is zero exactly
when every requested transfer succeeded. The batch-based variant
(cmd/grab/cmd/download.go) also exits with the count of failed transfers
whenever the batch is constructed, but when batch construction fails (a
malformed URL among the inputs, or an unusable working directory) it
exits with code 1 regardless of how many transfers were requested. -/
theorem cli_exit_code_amended :
    (∀ args : List CliArg, downloadCmdExit args = countFailed args) ∧
    (∀ args : List CliArg, (downloadCmdExit args = 0 ↔ countFailed args = 0)) ∧
    (∀ args : List CliArg,
      grabCmdExit .dir args =
        (if args.any (fun a => !a.parseOk) then 1
         else (args.filter (fun a => a.xferErr.isSome)).length)) ∧
    (∀ args : List CliArg,
      grabCmdExit .missing args = 1 ∧ grabCmdExit .file args = 1) := by
  have hmain : ∀ args : List CliArg, downloadCmdExit args = countFailed args := by
    intro args
    rw [downloadCmdExit, downloadCmdExit_foldl args 0, Nat.zero_add]
  refine ⟨hmain, fun args => by rw [hmain args], ?_, fun args => ⟨rfl, rfl⟩⟩
  intro args
  by_cases h : args.any (fun a => !a.parseOk) = true
  · have hm : (args.map (fun a => (⟨a.parseOk⟩ : UrlInput))).any
        (fun u => !u.parseOk) = true := by
      rw [any_map_parse]
      exact h
    simp [grabCmdExit, DownloadBatch, GetBatch, hm, h]
  · have hm : (args.map (fun a => (⟨a.parseOk⟩ : UrlInput))).any
        (fun u => !u.parseOk) = false := by
      rw [any_map_parse]
      simpa using h
    simp [grabCmdExit, DownloadBatch, GetBatch, hm, h]

end Grab
